import Mathlib

/-!
Verification of the gendiff diff engine (src/gendiff.go).

The embedding below translates the Go source into Lean:

* `Op`, `Diff`, `Diff.Len`, `cell` mirror the Go types of the same names.
* `table` is the dynamic-programming table of `Make` (gendiff.go lines
  126-169).  The Go code fills a dense `(llen+1) x (rlen+1)` array row by
  row; here the same values are produced by structural recursion
  (`tableRow` builds row `l` from row `l-1`, `rowCell` walks a row from
  column 0 upward), so every cell computes by kernel reduction.  The cell
  at `(l, r)` satisfies the exact Go recurrence, see `table_succ_succ`.
* `record` and `traceLoopF` mirror the backward reconstruction
  (gendiff.go lines 181-216).  The Go loop `for lidx > 0 || ridx > 0` is
  modelled with an explicit fuel argument; fuel `lidx + ridx` is always
  sufficient because every iteration decreases `lidx + ridx` by at least
  one.  The `Op.noOp` branch of the `switch` is a `panic` in Go; it is
  provably unreachable (`table_op_ne_noOp`), as are the index underflows
  of the other branches (`Delete` cells only occur at `lidx > 0`,
  `Insert` cells only at `ridx > 0`, `Match` cells inside the loop only
  at `lidx > 0` and `ridx > 0`).
* `Make` and `Compact` mirror the two exported functions.  Go's `nil`
  result of `Compact` is represented by `[]` (both are length-0).

Diff fields are `Int`, like Go `int` (no overflow is modelled: all values
involved stay far below 2^63 for any input sizes considered here).
-/

namespace Gendiff

/-- Go `Op` with its four constants, including the `noOp` sentinel. -/
inductive Op where
  | noOp
  | Match
  | Delete
  | Insert
deriving DecidableEq, Repr, Inhabited

/-- Go `Diff`: an operation together with half-open index ranges on the
left and right lists. -/
structure Diff where
  Op : Op
  Lstart : Int
  Lend : Int
  Rstart : Int
  Rend : Int
deriving DecidableEq, Repr, Inhabited

/-- Go `Diff.Len`: length of the range of the operation, `-1` for an
invalid operation tag. -/
def Diff.Len (d : Diff) : Int :=
  match d.Op with
  | Op.Match => d.Lend - d.Lstart
  | Op.Delete => d.Lend - d.Lstart
  | Op.Insert => d.Rend - d.Rstart
  | Op.noOp => -1

/-- Go `cell`: a DP table entry.  The Go `length` field is an `int` that
is only ever `0` or a previous length plus one, hence non-negative; it is
modelled as `Nat`. -/
structure cell where
  op : Op
  length : Nat
deriving DecidableEq, Repr, Inhabited

/-- Go `Interface` for the claims about non-negative lengths: the two
reported lengths (`LeftLen`, `RightLen`) and the total equality
predicate `Equal`. -/
structure Interface where
  LeftLen : Nat
  RightLen : Nat
  Equal : Nat → Nat → Bool

/-- One row of the DP table of `Make`, built by walking the row from
column 0 upward.  `prev` is the previous row (`table[l]` when building
row `l+1`), matching the Go loop body at gendiff.go lines 147-168:
`lcell` is the neighbor in the current row, `rcell` and `lrcell` are in
the previous row, and `eq l r` is `iface.Equal(lidx-1, ridx-1)`. -/
def rowCell (eq : Nat → Nat → Bool) (l : Nat) (prev : Nat → cell) : Nat → cell
  | 0 => ⟨Op.Delete, 0⟩
  | r + 1 =>
    let lcell := rowCell eq l prev r
    let rcell := prev (r + 1)
    let lrcell := prev r
    if eq l r then ⟨Op.Match, lrcell.length + 1⟩
    else if lcell.length < rcell.length then ⟨Op.Delete, rcell.length⟩
    else ⟨Op.Insert, lcell.length⟩

/-- Rows of the DP table: row 0 is the base row (`{Match,0}` at `(0,0)`,
`{Insert,0}` on the rest of row 0); row `l+1` starts with `{Delete,0}`
in column 0 (inside `rowCell`) and continues with the Go recurrence. -/
def tableRow (eq : Nat → Nat → Bool) : Nat → Nat → cell
  | 0 => fun r =>
    match r with
    | 0 => ⟨Op.Match, 0⟩
    | _ + 1 => ⟨Op.Insert, 0⟩
  | l + 1 => rowCell eq l (tableRow eq l)

/-- Go's `table[lidx][ridx]` after the fill loops of `Make`. -/
def table (eq : Nat → Nat → Bool) (l r : Nat) : cell :=
  tableRow eq l r

/-- Go trace state: the `diffs` slice accumulated so far and the pending
`lastdiff`. -/
structure TraceState where
  diffs : List Diff
  lastdiff : Diff
deriving Repr, Inhabited

/-- Go's `record` closure (gendiff.go lines 188-197): move the pending
diff's start to the current position; on an operation change, flush the
pending diff and restart it at the current position. -/
def record (op : Op) (lidx ridx : Int) (st : TraceState) : TraceState :=
  let ld := { st.lastdiff with Lstart := lidx, Rstart := ridx }
  if op ≠ ld.Op then
    { diffs := st.diffs ++ [ld],
      lastdiff := { ld with Op := op, Lend := lidx, Rend := ridx } }
  else
    { diffs := st.diffs, lastdiff := ld }

/-- Go's backward-trace loop `for lidx > 0 || ridx > 0` (gendiff.go
lines 199-214), with explicit fuel.  Fuel `lidx + ridx` is exact: every
iteration decreases `lidx + ridx` by at least one, and at `(0,0)` the
loop exits regardless of fuel.  The `Op.noOp` branch is Go's `panic`;
it is unreachable because the table never stores `noOp`
(`table_op_ne_noOp`).  The `lidx - 1` and `ridx - 1` updates match Go
because `Delete` cells only occur at `lidx > 0` and `Insert` cells only
at `ridx > 0` (so no underflow ever happens on a reachable path). -/
def traceLoopF (eq : Nat → Nat → Bool) : Nat → Nat → Nat → TraceState → TraceState
  | fuel + 1, lidx, ridx, st =>
    if lidx > 0 ∨ ridx > 0 then
      let c := table eq lidx ridx
      let st' := record c.op (lidx : Int) (ridx : Int) st
      match c.op with
      | Op.Match => traceLoopF eq fuel (lidx - 1) (ridx - 1) st'
      | Op.Delete => traceLoopF eq fuel (lidx - 1) ridx st'
      | Op.Insert => traceLoopF eq fuel lidx (ridx - 1) st'
      | Op.noOp => st'
    else st
  | 0, _, _, st => st

/-- Go `Make` (gendiff.go lines 120-224): build the DP table, trace it
backward from `(llen, rlen)` coalescing runs, emit the final pending
diff with `record(noOp, 0, 0)`, and reverse the collected list. -/
def Make (iface : Interface) : List Diff :=
  let llen := iface.LeftLen
  let rlen := iface.RightLen
  let lastcell := table iface.Equal llen rlen
  let st0 : TraceState := ⟨[], ⟨lastcell.op, (llen : Int), (llen : Int), (rlen : Int), (rlen : Int)⟩⟩
  let st1 := traceLoopF iface.Equal (llen + rlen) llen rlen st0
  let st2 := record Op.noOp 0 0 st1
  st2.diffs.reverse

/-- Go `Compact` (gendiff.go lines 242-319).  `ctxHead` is the Go
`prefix` closure (leading `contextLen` elements of a match) and
`ctxTail` the Go `suffix` closure (trailing `contextLen` elements).
Go's `nil` return is represented by `[]`. -/
def Compact (diffs : List Diff) (contextLen : Int) : List Diff :=
  let ctxHead := fun (m : Diff) =>
    Diff.mk Op.Match m.Lstart (m.Lstart + contextLen) m.Rstart (m.Rstart + contextLen)
  let ctxTail := fun (m : Diff) =>
    Diff.mk Op.Match (m.Lend - contextLen) m.Lend (m.Rend - contextLen) m.Rend
  match diffs with
  | [] => diffs
  | [d] => if d.Op = Op.Match then [] else diffs
  | [d0, d1] =>
    if d0.Op = Op.Match ∧ d0.Len > contextLen then [ctxTail d0, d1]
    else if d1.Op = Op.Match ∧ d1.Len > contextLen then [d0, ctxHead d1]
    else diffs
  | first :: rest =>
    let middle := rest.dropLast
    let last := rest.getLastD first
    let outFirst :=
      if first.Op = Op.Match ∧ first.Len > contextLen then [ctxTail first] else [first]
    let outMiddle := middle.flatMap fun d =>
      if d.Op = Op.Match ∧ d.Len > contextLen * 2 then [ctxHead d, ctxTail d] else [d]
    let outLast :=
      if last.Op = Op.Match ∧ last.Len > contextLen then [ctxHead last] else [last]
    outFirst ++ outMiddle ++ outLast

/-! ### Equations and shape facts for the DP table -/

theorem table_zero_zero (eq : Nat → Nat → Bool) : table eq 0 0 = ⟨Op.Match, 0⟩ := rfl

theorem table_succ_zero (eq : Nat → Nat → Bool) (l : Nat) :
    table eq (l + 1) 0 = ⟨Op.Delete, 0⟩ := rfl

theorem table_zero_succ (eq : Nat → Nat → Bool) (r : Nat) :
    table eq 0 (r + 1) = ⟨Op.Insert, 0⟩ := rfl

/-- The Go fill-loop recurrence (gendiff.go lines 147-168), verbatim. -/
theorem table_succ_succ (eq : Nat → Nat → Bool) (l r : Nat) :
    table eq (l + 1) (r + 1) =
      if eq l r then ⟨Op.Match, (table eq l r).length + 1⟩
      else if (table eq (l + 1) r).length < (table eq l (r + 1)).length then
        ⟨Op.Delete, (table eq l (r + 1)).length⟩
      else ⟨Op.Insert, (table eq (l + 1) r).length⟩ := rfl

theorem table_op_ne_noOp (eq : Nat → Nat → Bool) (l r : Nat) :
    (table eq l r).op ≠ Op.noOp := by
  match l, r with
  | 0, 0 => simp [table_zero_zero]
  | l + 1, 0 => simp [table_succ_zero]
  | 0, r + 1 => simp [table_zero_succ]
  | l + 1, r + 1 =>
    rw [table_succ_succ]
    split
    · simp
    · split <;> simp

theorem table_op_Delete_pos (eq : Nat → Nat → Bool) (l r : Nat)
    (h : (table eq l r).op = Op.Delete) : 0 < l := by
  match l, r with
  | 0, 0 => simp [table_zero_zero] at h
  | 0, r + 1 => simp [table_zero_succ] at h
  | l + 1, _ => exact Nat.succ_pos l

theorem table_op_Insert_pos (eq : Nat → Nat → Bool) (l r : Nat)
    (h : (table eq l r).op = Op.Insert) : 0 < r := by
  match l, r with
  | 0, 0 => simp [table_zero_zero] at h
  | l + 1, 0 => simp [table_succ_zero] at h
  | _, r + 1 => exact Nat.succ_pos r

theorem table_op_Match_pos (eq : Nat → Nat → Bool) (l r : Nat)
    (h : (table eq l r).op = Op.Match) : (l = 0 ∧ r = 0) ∨ (0 < l ∧ 0 < r) := by
  match l, r with
  | 0, 0 => exact Or.inl ⟨rfl, rfl⟩
  | l + 1, 0 => simp [table_succ_zero] at h
  | 0, r + 1 => simp [table_zero_succ] at h
  | l + 1, r + 1 => exact Or.inr ⟨Nat.succ_pos l, Nat.succ_pos r⟩

theorem table_length_left_zero (eq : Nat → Nat → Bool) (r : Nat) :
    (table eq 0 r).length = 0 := by
  match r with
  | 0 => rfl
  | r + 1 => rfl

theorem table_length_right_zero (eq : Nat → Nat → Bool) (l : Nat) :
    (table eq l 0).length = 0 := by
  match l with
  | 0 => rfl
  | l + 1 => rfl

/-- A `Match` cell in the interior comes from a successful equality test
and extends the diagonal length by one. -/
theorem table_Match_succ (eq : Nat → Nat → Bool) (l r : Nat)
    (h : (table eq (l + 1) (r + 1)).op = Op.Match) :
    eq l r = true ∧
      (table eq (l + 1) (r + 1)).length = (table eq l r).length + 1 := by
  rw [table_succ_succ] at h ⊢
  split_ifs at h ⊢ with h1 h2; simp_all

/-- A `Delete` cell copies the length of its upper neighbor. -/
theorem table_Delete_length (eq : Nat → Nat → Bool) (l r : Nat)
    (h : (table eq (l + 1) r).op = Op.Delete) :
    (table eq (l + 1) r).length = (table eq l r).length := by
  match r with
  | 0 => rw [table_succ_zero] at h ⊢; simp [table_length_right_zero]
  | r + 1 =>
    rw [table_succ_succ] at h ⊢
    split_ifs at h ⊢ with h1 h2; simp_all

/-- An `Insert` cell copies the length of its left neighbor. -/
theorem table_Insert_length (eq : Nat → Nat → Bool) (l r : Nat)
    (h : (table eq l (r + 1)).op = Op.Insert) :
    (table eq l (r + 1)).length = (table eq l r).length := by
  match l with
  | 0 => rw [table_zero_succ] at h ⊢; simp [table_length_left_zero]
  | l + 1 =>
    rw [table_succ_succ] at h ⊢
    split_ifs at h ⊢ with h1 h2; simp_all

/-! ### A state-free reformulation of the backward trace

`emitB eq l r o le re` is the list of diffs (in emission order, i.e.
backward) that the rest of the Go trace produces when the walk stands at
`(l, r)` and the pending `lastdiff` has operation `o` and end indices
`(le, re)` (its start indices are dead values, overwritten by the next
`record` call).  `traceLoop_bridge` proves it equal to the Go loop. -/

def emitB (eq : Nat → Nat → Bool) (l r : Nat) (o : Op) (le re : Nat) : List Diff :=
  if 0 < l ∨ 0 < r then
    let c := table eq l r
    let flushed : List Diff :=
      if c.op = o then [] else [⟨o, (l : Int), (le : Int), (r : Int), (re : Int)⟩]
    let le' := if c.op = o then le else l
    let re' := if c.op = o then re else r
    flushed ++
      (match c.op, l, r with
       | Op.Match, l' + 1, r' + 1 => emitB eq l' r' Op.Match le' re'
       | Op.Delete, l' + 1, r' => emitB eq l' r' Op.Delete le' re'
       | Op.Insert, l', r' + 1 => emitB eq l' r' Op.Insert le' re'
       | _, _, _ => [])
  else if o = Op.noOp then [] else [⟨o, 0, (le : Int), 0, (re : Int)⟩]
termination_by (l, r)

theorem emitB_zero (eq : Nat → Nat → Bool) (o : Op) (le re : Nat) :
    emitB eq 0 0 o le re =
      if o = Op.noOp then [] else [⟨o, 0, (le : Int), 0, (re : Int)⟩] := by
  rw [emitB]; simp

theorem emitB_Match_cont (eq : Nat → Nat → Bool) (l r le re : Nat)
    (h : (table eq (l + 1) (r + 1)).op = Op.Match) :
    emitB eq (l + 1) (r + 1) Op.Match le re = emitB eq l r Op.Match le re := by
  rw [emitB]; simp [h]

theorem emitB_Match_flush (eq : Nat → Nat → Bool) (l r le re : Nat) (o : Op)
    (h : (table eq (l + 1) (r + 1)).op = Op.Match) (hne : o ≠ Op.Match) :
    emitB eq (l + 1) (r + 1) o le re =
      ⟨o, ((l + 1 : Nat) : Int), (le : Int), ((r + 1 : Nat) : Int), (re : Int)⟩ ::
        emitB eq l r Op.Match (l + 1) (r + 1) := by
  rw [emitB]; simp [h, Ne.symm hne]

theorem emitB_Delete_cont (eq : Nat → Nat → Bool) (l r le re : Nat)
    (h : (table eq (l + 1) r).op = Op.Delete) :
    emitB eq (l + 1) r Op.Delete le re = emitB eq l r Op.Delete le re := by
  rw [emitB]; simp [h]

theorem emitB_Delete_flush (eq : Nat → Nat → Bool) (l r le re : Nat) (o : Op)
    (h : (table eq (l + 1) r).op = Op.Delete) (hne : o ≠ Op.Delete) :
    emitB eq (l + 1) r o le re =
      ⟨o, ((l + 1 : Nat) : Int), (le : Int), (r : Int), (re : Int)⟩ ::
        emitB eq l r Op.Delete (l + 1) r := by
  rw [emitB]; simp [h, Ne.symm hne]

theorem emitB_Insert_cont (eq : Nat → Nat → Bool) (l r le re : Nat)
    (h : (table eq l (r + 1)).op = Op.Insert) :
    emitB eq l (r + 1) Op.Insert le re = emitB eq l r Op.Insert le re := by
  rw [emitB]; simp [h]

theorem emitB_Insert_flush (eq : Nat → Nat → Bool) (l r le re : Nat) (o : Op)
    (h : (table eq l (r + 1)).op = Op.Insert) (hne : o ≠ Op.Insert) :
    emitB eq l (r + 1) o le re =
      ⟨o, (l : Int), (le : Int), ((r + 1 : Nat) : Int), (re : Int)⟩ ::
        emitB eq l r Op.Insert l (r + 1) := by
  rw [emitB]; simp [h, Ne.symm hne]

/-! ### Unfold lemmas for the Go loop and `record` -/

theorem record_same (op : Op) (li ri : Int) (ds : List Diff) (Ls LE Rs RE : Int) :
    record op li ri ⟨ds, ⟨op, Ls, LE, Rs, RE⟩⟩ = ⟨ds, ⟨op, li, LE, ri, RE⟩⟩ := by
  simp [record]

theorem record_flush (op o : Op) (li ri : Int) (ds : List Diff) (Ls LE Rs RE : Int)
    (h : op ≠ o) :
    record op li ri ⟨ds, ⟨o, Ls, LE, Rs, RE⟩⟩ =
      ⟨ds ++ [⟨o, li, LE, ri, RE⟩], ⟨op, li, li, ri, ri⟩⟩ := by
  simp [record, h]

theorem traceLoopF_exit (eq : Nat → Nat → Bool) (fuel : Nat) (st : TraceState) :
    traceLoopF eq fuel 0 0 st = st := by
  cases fuel <;> simp [traceLoopF]

theorem traceLoopF_Match (eq : Nat → Nat → Bool) (fuel l r : Nat) (st : TraceState)
    (hg : 0 < l ∨ 0 < r) (h : (table eq l r).op = Op.Match) :
    traceLoopF eq (fuel + 1) l r st =
      traceLoopF eq fuel (l - 1) (r - 1) (record Op.Match (l : Int) (r : Int) st) := by
  have hg' : l > 0 ∨ r > 0 := hg
  simp only [traceLoopF, if_pos hg', h]

theorem traceLoopF_Delete (eq : Nat → Nat → Bool) (fuel l r : Nat) (st : TraceState)
    (hg : 0 < l ∨ 0 < r) (h : (table eq l r).op = Op.Delete) :
    traceLoopF eq (fuel + 1) l r st =
      traceLoopF eq fuel (l - 1) r (record Op.Delete (l : Int) (r : Int) st) := by
  have hg' : l > 0 ∨ r > 0 := hg
  simp only [traceLoopF, if_pos hg', h]

theorem traceLoopF_Insert (eq : Nat → Nat → Bool) (fuel l r : Nat) (st : TraceState)
    (hg : 0 < l ∨ 0 < r) (h : (table eq l r).op = Op.Insert) :
    traceLoopF eq (fuel + 1) l r st =
      traceLoopF eq fuel l (r - 1) (record Op.Insert (l : Int) (r : Int) st) := by
  have hg' : l > 0 ∨ r > 0 := hg
  simp only [traceLoopF, if_pos hg', h]

/-- The Go backward loop followed by the final `record(noOp, 0, 0)`
produces exactly the already-collected diffs followed by the diffs
`emitB` describes. -/
theorem traceLoop_bridge (eq : Nat → Nat → Bool) :
    ∀ fuel l r, l + r ≤ fuel → ∀ (ds : List Diff) (o : Op) (le re : Nat) (Ls Rs : Int),
    (record Op.noOp 0 0
        (traceLoopF eq fuel l r ⟨ds, ⟨o, Ls, (le : Int), Rs, (re : Int)⟩⟩)).diffs
      = ds ++ emitB eq l r o le re := by
  have exit : ∀ (ds : List Diff) (o : Op) (le re : Nat) (Ls Rs : Int),
      (record Op.noOp 0 0 (⟨ds, ⟨o, Ls, (le : Int), Rs, (re : Int)⟩⟩ : TraceState)).diffs
        = ds ++ emitB eq 0 0 o le re := by
    intro ds o le re Ls Rs
    rw [emitB_zero]
    by_cases ho : o = Op.noOp
    · subst ho; rw [record_same]; simp
    · rw [record_flush _ _ _ _ _ _ _ _ _ (Ne.symm ho)]; simp [ho]
  intro fuel
  induction fuel with
  | zero =>
    intro l r hlr ds o le re Ls Rs
    have hl : l = 0 := by omega
    have hr : r = 0 := by omega
    subst hl; subst hr
    rw [traceLoopF_exit]
    exact exit ds o le re Ls Rs
  | succ fuel ih =>
    intro l r hlr ds o le re Ls Rs
    by_cases hg : 0 < l ∨ 0 < r
    · cases ho : (table eq l r).op with
      | noOp => exact absurd ho (table_op_ne_noOp eq l r)
      | Match =>
        rcases table_op_Match_pos eq l r ho with ⟨hl0, hr0⟩ | ⟨hl, hr⟩
        · omega
        obtain ⟨l₀, rfl⟩ : ∃ k, l = k + 1 := ⟨l - 1, by omega⟩
        obtain ⟨r₀, rfl⟩ : ∃ k, r = k + 1 := ⟨r - 1, by omega⟩
        rw [traceLoopF_Match eq fuel _ _ _ hg ho]
        by_cases hoo : o = Op.Match
        · subst hoo
          rw [record_same]
          try simp only [Nat.add_sub_cancel]
          rw [ih l₀ r₀ (by omega) ds Op.Match le re _ _]
          rw [emitB_Match_cont eq l₀ r₀ le re ho]
        · rw [record_flush _ _ _ _ _ _ _ _ _ (Ne.symm hoo)]
          try simp only [Nat.add_sub_cancel]
          rw [ih l₀ r₀ (by omega) _ Op.Match (l₀ + 1) (r₀ + 1) _ _]
          rw [emitB_Match_flush eq l₀ r₀ le re o ho hoo]
          simp
      | Delete =>
        have hl := table_op_Delete_pos eq l r ho
        obtain ⟨l₀, rfl⟩ : ∃ k, l = k + 1 := ⟨l - 1, by omega⟩
        rw [traceLoopF_Delete eq fuel _ _ _ hg ho]
        by_cases hoo : o = Op.Delete
        · subst hoo
          rw [record_same]
          try simp only [Nat.add_sub_cancel]
          rw [ih l₀ r (by omega) ds Op.Delete le re _ _]
          rw [emitB_Delete_cont eq l₀ r le re ho]
        · rw [record_flush _ _ _ _ _ _ _ _ _ (Ne.symm hoo)]
          try simp only [Nat.add_sub_cancel]
          rw [ih l₀ r (by omega) _ Op.Delete (l₀ + 1) r _ _]
          rw [emitB_Delete_flush eq l₀ r le re o ho hoo]
          simp
      | Insert =>
        have hr := table_op_Insert_pos eq l r ho
        obtain ⟨r₀, rfl⟩ : ∃ k, r = k + 1 := ⟨r - 1, by omega⟩
        rw [traceLoopF_Insert eq fuel _ _ _ hg ho]
        by_cases hoo : o = Op.Insert
        · subst hoo
          rw [record_same]
          try simp only [Nat.add_sub_cancel]
          rw [ih l r₀ (by omega) ds Op.Insert le re _ _]
          rw [emitB_Insert_cont eq l r₀ le re ho]
        · rw [record_flush _ _ _ _ _ _ _ _ _ (Ne.symm hoo)]
          try simp only [Nat.add_sub_cancel]
          rw [ih l r₀ (by omega) _ Op.Insert l (r₀ + 1) _ _]
          rw [emitB_Insert_flush eq l r₀ le re o ho hoo]
          simp
    · have hl : l = 0 := by omega
      have hr : r = 0 := by omega
      subst hl; subst hr
      rw [traceLoopF_exit]
      exact exit ds o le re Ls Rs

/-- `Make` is the reverse of the state-free emission starting at
`(leftLength, rightLength)` with the bottom-right cell's operation
pending. -/
theorem Make_eq_emitB (iface : Interface) :
    Make iface =
      (emitB iface.Equal iface.LeftLen iface.RightLen
        (table iface.Equal iface.LeftLen iface.RightLen).op
        iface.LeftLen iface.RightLen).reverse := by
  show ((record Op.noOp 0 0
      (traceLoopF iface.Equal (iface.LeftLen + iface.RightLen) iface.LeftLen iface.RightLen
        ⟨[], ⟨(table iface.Equal iface.LeftLen iface.RightLen).op,
          (iface.LeftLen : Int), (iface.LeftLen : Int),
          (iface.RightLen : Int), (iface.RightLen : Int)⟩⟩)).diffs).reverse = _
  rw [traceLoop_bridge iface.Equal (iface.LeftLen + iface.RightLen)
    iface.LeftLen iface.RightLen le_rfl [] _ iface.LeftLen iface.RightLen _ _]
  simp

/-! ### Structural invariants of the emitted script -/

/-- Invariant of the pending run while the backward walk stands at
`(l, r)`: the run has operation `o` and will end (in forward reading) at
`(le, re)`; a `Match` run advanced both cursors in lockstep over
equality-related pairs, a `Delete` run only the left cursor, an `Insert`
run only the right cursor. -/
def RunOK (eq : Nat → Nat → Bool) (l r : Nat) (o : Op) (le re : Nat) : Prop :=
  l ≤ le ∧ r ≤ re ∧ o ≠ Op.noOp ∧
  (o = Op.Match → le - l = re - r ∧ ∀ j : Nat, l + j < le → eq (l + j) (r + j) = true) ∧
  (o = Op.Delete → r = re) ∧
  (o = Op.Insert → l = le)

/-- Shape of a single emitted record: non-negative ascending ranges; a
`Match` consumes equal-length ranges of equality-related pairs; a
`Delete` has an empty right range; an `Insert` an empty left range. -/
def okRec (eq : Nat → Nat → Bool) (d : Diff) : Prop :=
  0 ≤ d.Lstart ∧ d.Lstart ≤ d.Lend ∧ 0 ≤ d.Rstart ∧ d.Rstart ≤ d.Rend ∧
  d.Op ≠ Op.noOp ∧
  (d.Op = Op.Match → d.Lend - d.Lstart = d.Rend - d.Rstart ∧
    ∀ j : Nat, (j : Int) < d.Lend - d.Lstart →
      eq (d.Lstart + (j : Int)).toNat (d.Rstart + (j : Int)).toNat = true) ∧
  (d.Op = Op.Delete → d.Rstart = d.Rend) ∧
  (d.Op = Op.Insert → d.Lstart = d.Lend)

/-- Specification of the emitted (backward-ordered) list: nonempty, its
head is the pending run ending at `(le, re)` with operation `o`, its
last record starts at `(0, 0)`, consecutive records abut (the earlier
record in forward order ends where the later starts) and never share an
operation, and every record is well-shaped and ends within `(le, re)`. -/
def EmitOK (eq : Nat → Nat → Bool) (o : Op) (le re : Nat) (E : List Diff) : Prop :=
  E ≠ [] ∧
  (E.headD default).Op = o ∧
  (E.headD default).Lend = (le : Int) ∧
  (E.headD default).Rend = (re : Int) ∧
  (E.getLastD default).Lstart = 0 ∧
  (E.getLastD default).Rstart = 0 ∧
  E.Chain' (fun d d' => d'.Lend = d.Lstart ∧ d'.Rend = d.Rstart ∧ d'.Op ≠ d.Op) ∧
  ∀ d ∈ E, okRec eq d ∧ d.Lend ≤ (le : Int) ∧ d.Rend ≤ (re : Int)

theorem getLastD_congr {α : Type} (l : List α) (a b : α) (h : l ≠ []) :
    l.getLastD a = l.getLastD b := by
  cases l with
  | nil => exact absurd rfl h
  | cons x xs => rw [List.getLastD_cons, List.getLastD_cons]

theorem head?_eq_headD {α : Type} [Inhabited α] (l : List α) (h : l ≠ []) :
    l.head? = some (l.headD default) := by
  cases l with
  | nil => exact absurd rfl h
  | cons x xs => rfl

theorem okRec_def (eq : Nat → Nat → Bool) (o : Op) (ls le rs re : Int) :
    okRec eq ⟨o, ls, le, rs, re⟩ ↔
      (0 ≤ ls ∧ ls ≤ le ∧ 0 ≤ rs ∧ rs ≤ re ∧ o ≠ Op.noOp ∧
       (o = Op.Match → le - ls = re - rs ∧ ∀ j : Nat, (j : Int) < le - ls →
          eq (ls + (j : Int)).toNat (rs + (j : Int)).toNat = true) ∧
       (o = Op.Delete → rs = re) ∧ (o = Op.Insert → ls = le)) := Iff.rfl

/-- The record flushed for a pending run satisfying the run invariant is
well shaped. -/
theorem okRec_flush (eq : Nat → Nat → Bool) (o : Op) (l r le re : Nat)
    (hle : l ≤ le) (hre : r ≤ re) (hnoop : o ≠ Op.noOp)
    (hM : o = Op.Match →
      le - l = re - r ∧ ∀ j : Nat, l + j < le → eq (l + j) (r + j) = true)
    (hD : o = Op.Delete → r = re) (hI : o = Op.Insert → l = le) :
    okRec eq ⟨o, (l : Int), (le : Int), (r : Int), (re : Int)⟩ := by
  rw [okRec_def]
  refine ⟨Int.natCast_nonneg l, by exact_mod_cast hle, Int.natCast_nonneg r,
    by exact_mod_cast hre, hnoop, ?_, ?_, ?_⟩
  · intro hop
    obtain ⟨hdiff, hpairs⟩ := hM hop
    refine ⟨by omega, ?_⟩
    intro j hj
    have hjlt : l + j < le := by omega
    have h1 : ((l : Nat) : Int) + (j : Int) = ((l + j : Nat) : Int) := by push_cast; ring
    have h2 : ((r : Nat) : Int) + (j : Int) = ((r + j : Nat) : Int) := by push_cast; ring
    rw [h1, h2, Int.toNat_natCast, Int.toNat_natCast]
    exact hpairs j hjlt
  · intro hop
    exact_mod_cast congrArg (Nat.cast : Nat → Int) (hD hop)
  · intro hop
    exact_mod_cast congrArg (Nat.cast : Nat → Int) (hI hop)

theorem emitB_spec (eq : Nat → Nat → Bool) :
    ∀ n l r o le re, l + r = n → RunOK eq l r o le re →
      EmitOK eq o le re (emitB eq l r o le re) := by
  intro n
  induction n using Nat.strong_induction_on with
  | _ n ih =>
    intro l r o le re hn hrun
    obtain ⟨hle, hre, hnoop, hM, hD, hI⟩ := hrun
    by_cases hg : 0 < l ∨ 0 < r
    · cases ho : (table eq l r).op with
      | noOp => exact absurd ho (table_op_ne_noOp eq l r)
      | Match =>
        rcases table_op_Match_pos eq l r ho with ⟨hl0, hr0⟩ | ⟨hl, hr⟩
        · omega
        obtain ⟨l₀, rfl⟩ : ∃ k, l = k + 1 := ⟨l - 1, by omega⟩
        obtain ⟨r₀, rfl⟩ : ∃ k, r = k + 1 := ⟨r - 1, by omega⟩
        obtain ⟨heq0, -⟩ := table_Match_succ eq l₀ r₀ ho
        by_cases hoo : o = Op.Match
        · subst hoo
          rw [emitB_Match_cont eq l₀ r₀ le re ho]
          apply ih (l₀ + r₀) (by omega) l₀ r₀ Op.Match le re rfl
          obtain ⟨hdiff, hpairs⟩ := hM rfl
          refine ⟨by omega, by omega, by simp, fun _ => ⟨by omega, ?_⟩, by simp, by simp⟩
          intro j hj
          match j with
          | 0 => simpa using heq0
          | j' + 1 =>
            have h1 : l₀ + (j' + 1) = l₀ + 1 + j' := by omega
            have h2 : r₀ + (j' + 1) = r₀ + 1 + j' := by omega
            rw [h1, h2]
            exact hpairs j' (by omega)
        · rw [emitB_Match_flush eq l₀ r₀ le re o ho hoo]
          have hrun' : RunOK eq l₀ r₀ Op.Match (l₀ + 1) (r₀ + 1) := by
            refine ⟨by omega, by omega, by simp, fun _ => ⟨by omega, ?_⟩, by simp, by simp⟩
            intro j hj
            have hj0 : j = 0 := by omega
            subst hj0
            simpa using heq0
          have hE' := ih (l₀ + r₀) (by omega) l₀ r₀ Op.Match (l₀ + 1) (r₀ + 1) rfl hrun'
          obtain ⟨hne', hhop, hhle, hhre, hls, hrs, hch, hmem⟩ := hE'
          refine ⟨by simp, by simp, by simp, by simp, ?_, ?_, ?_, ?_⟩
          · rw [List.getLastD_cons, getLastD_congr _ _ default hne']
            exact hls
          · rw [List.getLastD_cons, getLastD_congr _ _ default hne']
            exact hrs
          · rw [List.chain'_cons']
            refine ⟨?_, hch⟩
            intro y hy
            rw [head?_eq_headD _ hne'] at hy
            simp only [Option.mem_def, Option.some.injEq] at hy
            subst hy
            exact ⟨by simpa using hhle, by simpa using hhre,
              by rw [hhop]; simpa using Ne.symm hoo⟩
          · intro d hd
            rcases List.mem_cons.mp hd with rfl | hd'
            · exact ⟨okRec_flush eq o (l₀ + 1) (r₀ + 1) le re hle hre hnoop hM hD hI,
                le_refl _, le_refl _⟩
            · obtain ⟨hok, hbl, hbr⟩ := hmem d hd'
              exact ⟨hok, le_trans hbl (by exact_mod_cast hle),
                le_trans hbr (by exact_mod_cast hre)⟩
      | Delete =>
        have hl := table_op_Delete_pos eq l r ho
        obtain ⟨l₀, rfl⟩ : ∃ k, l = k + 1 := ⟨l - 1, by omega⟩
        by_cases hoo : o = Op.Delete
        · subst hoo
          rw [emitB_Delete_cont eq l₀ r le re ho]
          apply ih (l₀ + r) (by omega) l₀ r Op.Delete le re rfl
          exact ⟨by omega, hre, by simp, by simp, hD, by simp⟩
        · rw [emitB_Delete_flush eq l₀ r le re o ho hoo]
          have hrun' : RunOK eq l₀ r Op.Delete (l₀ + 1) r :=
            ⟨by omega, le_refl r, by simp, by simp, fun _ => rfl, by simp⟩
          have hE' := ih (l₀ + r) (by omega) l₀ r Op.Delete (l₀ + 1) r rfl hrun'
          obtain ⟨hne', hhop, hhle, hhre, hls, hrs, hch, hmem⟩ := hE'
          refine ⟨by simp, by simp, by simp, by simp, ?_, ?_, ?_, ?_⟩
          · rw [List.getLastD_cons, getLastD_congr _ _ default hne']
            exact hls
          · rw [List.getLastD_cons, getLastD_congr _ _ default hne']
            exact hrs
          · rw [List.chain'_cons']
            refine ⟨?_, hch⟩
            intro y hy
            rw [head?_eq_headD _ hne'] at hy
            simp only [Option.mem_def, Option.some.injEq] at hy
            subst hy
            exact ⟨by simpa using hhle, by simpa using hhre,
              by rw [hhop]; simpa using Ne.symm hoo⟩
          · intro d hd
            rcases List.mem_cons.mp hd with rfl | hd'
            · exact ⟨okRec_flush eq o (l₀ + 1) r le re hle hre hnoop hM hD hI,
                le_refl _, le_refl _⟩
            · obtain ⟨hok, hbl, hbr⟩ := hmem d hd'
              exact ⟨hok, le_trans hbl (by exact_mod_cast hle),
                le_trans hbr (by exact_mod_cast hre)⟩
      | Insert =>
        have hr := table_op_Insert_pos eq l r ho
        obtain ⟨r₀, rfl⟩ : ∃ k, r = k + 1 := ⟨r - 1, by omega⟩
        by_cases hoo : o = Op.Insert
        · subst hoo
          rw [emitB_Insert_cont eq l r₀ le re ho]
          apply ih (l + r₀) (by omega) l r₀ Op.Insert le re rfl
          exact ⟨hle, by omega, by simp, by simp, by simp, hI⟩
        · rw [emitB_Insert_flush eq l r₀ le re o ho hoo]
          have hrun' : RunOK eq l r₀ Op.Insert l (r₀ + 1) :=
            ⟨le_refl l, by omega, by simp, by simp, by simp, fun _ => rfl⟩
          have hE' := ih (l + r₀) (by omega) l r₀ Op.Insert l (r₀ + 1) rfl hrun'
          obtain ⟨hne', hhop, hhle, hhre, hls, hrs, hch, hmem⟩ := hE'
          refine ⟨by simp, by simp, by simp, by simp, ?_, ?_, ?_, ?_⟩
          · rw [List.getLastD_cons, getLastD_congr _ _ default hne']
            exact hls
          · rw [List.getLastD_cons, getLastD_congr _ _ default hne']
            exact hrs
          · rw [List.chain'_cons']
            refine ⟨?_, hch⟩
            intro y hy
            rw [head?_eq_headD _ hne'] at hy
            simp only [Option.mem_def, Option.some.injEq] at hy
            subst hy
            exact ⟨by simpa using hhle, by simpa using hhre,
              by rw [hhop]; simpa using Ne.symm hoo⟩
          · intro d hd
            rcases List.mem_cons.mp hd with rfl | hd'
            · exact ⟨okRec_flush eq o l (r₀ + 1) le re hle hre hnoop hM hD hI,
                le_refl _, le_refl _⟩
            · obtain ⟨hok, hbl, hbr⟩ := hmem d hd'
              exact ⟨hok, le_trans hbl (by exact_mod_cast hle),
                le_trans hbr (by exact_mod_cast hre)⟩
    · obtain rfl : l = 0 := by omega
      obtain rfl : r = 0 := by omega
      rw [emitB_zero, if_neg hnoop]
      refine ⟨by simp, by simp, by simp, by simp, by simp, by simp, by simp, ?_⟩
      intro d hd
      obtain rfl : d = ⟨o, 0, (le : Int), 0, (re : Int)⟩ := by simpa using hd
      have h0 : ((0 : Nat) : Int) = (0 : Int) := rfl
      refine ⟨?_, le_refl _, le_refl _⟩
      have := okRec_flush eq o 0 0 le re (Nat.zero_le le) (Nat.zero_le re) hnoop hM hD hI
      simpa [h0] using this

/-- The pending run at the very start of the walk (at
`(leftLength, rightLength)`, zero length, operation of the bottom-right
cell) satisfies the run invariant. -/
theorem RunOK_init (eq : Nat → Nat → Bool) (NL NR : Nat) :
    RunOK eq NL NR (table eq NL NR).op NL NR := by
  refine ⟨le_refl _, le_refl _, table_op_ne_noOp eq _ _, ?_, fun _ => rfl, fun _ => rfl⟩
  intro _
  exact ⟨by omega, fun j hj => absurd hj (by omega)⟩

/-- Structural specification of `Make`, transported from `emitB_spec`
through `Make_eq_emitB`. -/
theorem Make_spec (iface : Interface) :
    EmitOK iface.Equal (table iface.Equal iface.LeftLen iface.RightLen).op
      iface.LeftLen iface.RightLen
      (emitB iface.Equal iface.LeftLen iface.RightLen
        (table iface.Equal iface.LeftLen iface.RightLen).op
        iface.LeftLen iface.RightLen) :=
  emitB_spec iface.Equal (iface.LeftLen + iface.RightLen) iface.LeftLen iface.RightLen
    _ iface.LeftLen iface.RightLen rfl
    (RunOK_init iface.Equal iface.LeftLen iface.RightLen)

theorem headD_reverse {α : Type} [Inhabited α] (l : List α) :
    l.reverse.headD default = l.getLastD default := by
  rw [List.headD_eq_head?_getD, List.head?_reverse, List.getLastD_eq_getLast?]

theorem getLastD_reverse {α : Type} [Inhabited α] (l : List α) :
    l.reverse.getLastD default = l.headD default := by
  rw [List.getLastD_eq_getLast?, List.getLast?_reverse, List.headD_eq_head?_getD]

/-- C2: the `Make` result is a contiguous cover of both index ranges:
it is nonempty, starts at `(0,0)`, ends at `(leftLength, rightLength)`,
consecutive records abut on both axes, and every record is an ascending
range lying inside the bounds. -/
theorem C2_contiguous_cover (iface : Interface) :
    Make iface ≠ [] ∧
    ((Make iface).headD default).Lstart = 0 ∧
    ((Make iface).headD default).Rstart = 0 ∧
    ((Make iface).getLastD default).Lend = (iface.LeftLen : Int) ∧
    ((Make iface).getLastD default).Rend = (iface.RightLen : Int) ∧
    (Make iface).Chain' (fun d d' => d.Lend = d'.Lstart ∧ d.Rend = d'.Rstart) ∧
    ∀ d ∈ Make iface, 0 ≤ d.Lstart ∧ d.Lstart ≤ d.Lend ∧ 0 ≤ d.Rstart ∧
      d.Rstart ≤ d.Rend ∧ d.Lend ≤ (iface.LeftLen : Int) ∧
      d.Rend ≤ (iface.RightLen : Int) := by
  obtain ⟨hne, hhop, hhle, hhre, hls, hrs, hch, hmem⟩ := Make_spec iface
  rw [Make_eq_emitB iface]
  refine ⟨by simpa using hne, ?_, ?_, ?_, ?_, ?_, ?_⟩
  · rw [headD_reverse, getLastD_congr _ _ default hne]
    exact hls
  · rw [headD_reverse, getLastD_congr _ _ default hne]
    exact hrs
  · rw [getLastD_reverse]
    exact hhle
  · rw [getLastD_reverse]
    exact hhre
  · rw [List.chain'_reverse]
    exact hch.imp (fun a b hab => ⟨hab.1, hab.2.1⟩)
  · intro d hd
    rw [List.mem_reverse] at hd
    obtain ⟨⟨h1, h2, h3, h4, -, -, -, -⟩, h5, h6⟩ := hmem d hd
    exact ⟨h1, h2, h3, h4, h5, h6⟩

theorem Make_chain_op_ne (iface : Interface) :
    (Make iface).Chain' (fun d d' => d.Op ≠ d'.Op) := by
  obtain ⟨-, -, -, -, -, -, hch, -⟩ := Make_spec iface
  rw [Make_eq_emitB iface, List.chain'_reverse]
  exact hch.imp (fun a b hab => hab.2.2)

/-- C5: no two consecutive records of a `Make` result carry the same
operation tag (backward-trace steps with equal operations are coalesced
into one record). -/
theorem C5_no_adjacent_same_op (iface : Interface) :
    (Make iface).Chain' (fun d d' => d.Op ≠ d'.Op) :=
  Make_chain_op_ne iface

/-! ### C1: applying the script to the left sequence yields the right
sequence.

`applyScript` is the observation function described by the spec's
round-trip property: concatenate, in script order, the left elements of
each `Match` range and the right elements of each `Insert` range, and
skip `Delete` ranges. -/

/-- Elements `f s, f (s+1), ..., f (e-1)` of a sequence, for a half-open
`Int` index range (empty when `e ≤ s`). -/
def sliceSeq {α : Type} (f : Nat → α) (s e : Int) : List α :=
  (List.range' s.toNat (e - s).toNat).map f

/-- Apply an edit script to `left`: emit left elements of `Match`
ranges and right elements of `Insert` ranges, skip `Delete` ranges. -/
def applyScript {α : Type} (left right : Nat → α) (ds : List Diff) : List α :=
  ds.flatMap fun d =>
    match d.Op with
    | Op.Match => sliceSeq left d.Lstart d.Lend
    | Op.Insert => sliceSeq right d.Rstart d.Rend
    | _ => []

theorem map_range'_congr {α : Type} (f g : Nat → α) :
    ∀ (n a b : Nat), (∀ j, j < n → f (a + j) = g (b + j)) →
      (List.range' a n).map f = (List.range' b n).map g := by
  intro n
  induction n with
  | zero => intro a b _; rfl
  | succ n ihn =>
    intro a b h
    rw [List.range'_succ, List.range'_succ]
    simp only [List.map_cons]
    congr 1
    · simpa using h 0 (by omega)
    · apply ihn
      intro j hj
      have h1 : a + 1 + j = a + (j + 1) := by omega
      have h2 : b + 1 + j = b + (j + 1) := by omega
      rw [h1, h2]
      exact h (j + 1) (by omega)

theorem sliceSeq_append {α : Type} (f : Nat → α) (a m b : Int)
    (h0 : 0 ≤ a) (h1 : a ≤ m) (h2 : m ≤ b) :
    sliceSeq f a m ++ sliceSeq f m b = sliceSeq f a b := by
  unfold sliceSeq
  rw [← List.map_append]
  congr 1
  have ha : m.toNat = a.toNat + (m - a).toNat := by omega
  have hb : (b - m).toNat + (m - a).toNat = (b - a).toNat := by omega
  rw [ha, List.range'_append_1, hb]

/-- The contribution of a single well-shaped record to the applied
script equals the corresponding slice of the right sequence. -/
theorem applyD_ok {α : Type} (left right : Nat → α) (eq : Nat → Nat → Bool)
    (NL NR : Nat)
    (heq : ∀ a b, a < NL → b < NR → eq a b = true → left a = right b)
    (d : Diff) (hok : okRec eq d) (hbl : d.Lend ≤ (NL : Int))
    (hbr : d.Rend ≤ (NR : Int)) :
    (match d.Op with
     | Op.Match => sliceSeq left d.Lstart d.Lend
     | Op.Insert => sliceSeq right d.Rstart d.Rend
     | _ => ([] : List α)) = sliceSeq right d.Rstart d.Rend := by
  obtain ⟨hls0, hlse, hrs0, hrse, hnoop, hMc, hDc, hIc⟩ := hok
  cases hop : d.Op with
  | noOp => exact absurd hop hnoop
  | Insert => rfl
  | Delete =>
    have h := hDc hop
    simp only []
    unfold sliceSeq
    have : (d.Rend - d.Rstart).toNat = 0 := by omega
    rw [this]
    rfl
  | Match =>
    obtain ⟨hlen, hpairs⟩ := hMc hop
    simp only []
    unfold sliceSeq
    have hn : (d.Lend - d.Lstart).toNat = (d.Rend - d.Rstart).toNat := by omega
    rw [hn]
    apply map_range'_congr
    intro j hj
    have hjI : (j : Int) < d.Lend - d.Lstart := by omega
    have hpair := hpairs j hjI
    have e1 : (d.Lstart + (j : Int)).toNat = d.Lstart.toNat + j := by omega
    have e2 : (d.Rstart + (j : Int)).toNat = d.Rstart.toNat + j := by omega
    rw [e1, e2] at hpair
    apply heq _ _ _ _ hpair
    · omega
    · omega

/-- Applying the reversed (forward-ordered) script emitted by the
backward walk yields the right-sequence slice from 0 to the end of the
head (most forward) record. -/
theorem applyScript_reverse {α : Type} (left right : Nat → α)
    (eq : Nat → Nat → Bool) (NL NR : Nat)
    (heq : ∀ a b, a < NL → b < NR → eq a b = true → left a = right b) :
    ∀ E : List Diff, E ≠ [] →
      E.Chain' (fun d d' => d'.Rend = d.Rstart) →
      (E.getLastD default).Rstart = 0 →
      (∀ d ∈ E, okRec eq d ∧ d.Lend ≤ (NL : Int) ∧ d.Rend ≤ (NR : Int)) →
      applyScript left right E.reverse = sliceSeq right 0 (E.headD default).Rend := by
  intro E
  induction E with
  | nil => intro h; exact absurd rfl h
  | cons d E' ihE =>
    intro _ hch hlast hmem
    obtain ⟨hok, hbl, hbr⟩ := hmem d (by simp)
    cases E' with
    | nil =>
      have h0 : d.Rstart = 0 := by simpa using hlast
      show applyScript left right [d] = _
      unfold applyScript
      rw [List.flatMap_cons, List.flatMap_nil, List.append_nil]
      rw [applyD_ok left right eq NL NR heq d hok hbl hbr, h0]
      rfl
    | cons d2 E'' =>
      have hE'ne : d2 :: E'' ≠ [] := by simp
      obtain ⟨hlink, hch'⟩ := List.chain'_cons'.mp hch
      have hlink2 : d2.Rend = d.Rstart := by simpa using hlink d2 rfl
      have hlast' : ((d2 :: E'').getLastD default).Rstart = 0 := by
        rw [List.getLastD_cons] at hlast
        rw [getLastD_congr _ default d2 hE'ne]
        exact hlast
      have hmem' : ∀ x ∈ d2 :: E'', okRec eq x ∧ x.Lend ≤ (NL : Int) ∧
          x.Rend ≤ (NR : Int) := fun x hx => hmem x (by simp [hx])
      rw [List.reverse_cons]
      unfold applyScript
      rw [List.flatMap_append]
      show applyScript left right (d2 :: E'').reverse ++
        ([d].flatMap _) = _
      rw [ihE hE'ne hch' hlast' hmem']
      rw [List.flatMap_cons, List.flatMap_nil, List.append_nil]
      rw [applyD_ok left right eq NL NR heq d hok hbl hbr]
      obtain ⟨h1, h2, h3, h4, -, -, -, -⟩ := hok
      rw [show ((d2 :: E'').headD default).Rend = d.Rstart from hlink2]
      exact sliceSeq_append right 0 d.Rstart d.Rend (le_refl 0) h3 h4

/-- C1: applying the edit script of `Make` to the left sequence
reproduces exactly the right sequence, for any pair of sequences related
by the equality predicate on matched positions. -/
theorem C1_round_trip {α : Type} (iface : Interface) (left right : Nat → α)
    (heq : ∀ a b, a < iface.LeftLen → b < iface.RightLen →
      iface.Equal a b = true → left a = right b) :
    applyScript left right (Make iface) =
      (List.range iface.RightLen).map right := by
  obtain ⟨hne, hhop, hhle, hhre, hls, hrs, hch, hmem⟩ := Make_spec iface
  rw [Make_eq_emitB iface]
  rw [applyScript_reverse left right iface.Equal iface.LeftLen iface.RightLen heq _
    hne (hch.imp (fun a b hab => hab.2.1)) hrs hmem]
  rw [hhre]
  unfold sliceSeq
  simp [List.range_eq_range']

/-! ### C3: the Match records select a longest common subsequence -/

/-- Total number of matched elements of a script: the sum of the left
lengths of its `Match` records. -/
def matchTotal (ds : List Diff) : Int :=
  (ds.map fun d => if d.Op = Op.Match then d.Lend - d.Lstart else 0).sum

theorem matchTotal_nil : matchTotal [] = 0 := rfl

theorem matchTotal_cons (d : Diff) (ds : List Diff) :
    matchTotal (d :: ds) =
      (if d.Op = Op.Match then d.Lend - d.Lstart else 0) + matchTotal ds := by
  simp [matchTotal]

theorem matchTotal_reverse (ds : List Diff) :
    matchTotal ds.reverse = matchTotal ds := by
  unfold matchTotal
  rw [List.map_reverse, List.sum_reverse]

/-- The number of `Match` steps the backward walk takes from `(l, r)` is
exactly the DP length stored at `(l, r)`; together with the pending run
this accounts for the whole emitted match total. -/
theorem emitB_matchTotal (eq : Nat → Nat → Bool) :
    ∀ n l r o le re, l + r = n → RunOK eq l r o le re →
      matchTotal (emitB eq l r o le re) =
        ((table eq l r).length : Int) +
          (if o = Op.Match then (le : Int) - (l : Int) else 0) := by
  intro n
  induction n using Nat.strong_induction_on with
  | _ n ih =>
    intro l r o le re hn hrun
    obtain ⟨hle, hre, hnoop, hM, hD, hI⟩ := hrun
    by_cases hg : 0 < l ∨ 0 < r
    · cases ho : (table eq l r).op with
      | noOp => exact absurd ho (table_op_ne_noOp eq l r)
      | Match =>
        rcases table_op_Match_pos eq l r ho with ⟨hl0, hr0⟩ | ⟨hl, hr⟩
        · omega
        obtain ⟨l₀, rfl⟩ : ∃ k, l = k + 1 := ⟨l - 1, by omega⟩
        obtain ⟨r₀, rfl⟩ : ∃ k, r = k + 1 := ⟨r - 1, by omega⟩
        obtain ⟨heq0, hlen⟩ := table_Match_succ eq l₀ r₀ ho
        by_cases hoo : o = Op.Match
        · subst hoo
          rw [emitB_Match_cont eq l₀ r₀ le re ho]
          obtain ⟨hdiff, hpairs⟩ := hM rfl
          rw [ih (l₀ + r₀) (by omega) l₀ r₀ Op.Match le re rfl ?_]
          · rw [hlen]
            simp only [if_pos rfl]
            push_cast
            omega
          · refine ⟨by omega, by omega, by simp, fun _ => ⟨by omega, ?_⟩, by simp, by simp⟩
            intro j hj
            match j with
            | 0 => simpa using heq0
            | j' + 1 =>
              have h1 : l₀ + (j' + 1) = l₀ + 1 + j' := by omega
              have h2 : r₀ + (j' + 1) = r₀ + 1 + j' := by omega
              rw [h1, h2]
              exact hpairs j' (by omega)
        · rw [emitB_Match_flush eq l₀ r₀ le re o ho hoo]
          rw [matchTotal_cons]
          have hrun' : RunOK eq l₀ r₀ Op.Match (l₀ + 1) (r₀ + 1) := by
            refine ⟨by omega, by omega, by simp, fun _ => ⟨by omega, ?_⟩, by simp, by simp⟩
            intro j hj
            have hj0 : j = 0 := by omega
            subst hj0
            simpa using heq0
          rw [ih (l₀ + r₀) (by omega) l₀ r₀ Op.Match (l₀ + 1) (r₀ + 1) rfl hrun']
          rw [hlen]
          simp only [if_pos rfl]
          by_cases hoM : o = Op.Match
          · exact absurd hoM hoo
          · simp only [hoM, if_neg, if_false]
            push_cast
            omega
      | Delete =>
        have hl := table_op_Delete_pos eq l r ho
        obtain ⟨l₀, rfl⟩ : ∃ k, l = k + 1 := ⟨l - 1, by omega⟩
        have hlen := table_Delete_length eq l₀ r ho
        by_cases hoo : o = Op.Delete
        · subst hoo
          rw [emitB_Delete_cont eq l₀ r le re ho]
          rw [ih (l₀ + r) (by omega) l₀ r Op.Delete le re rfl
            ⟨by omega, hre, by simp, by simp, hD, by simp⟩]
          rw [hlen]
          simp
        · rw [emitB_Delete_flush eq l₀ r le re o ho hoo]
          rw [matchTotal_cons]
          rw [ih (l₀ + r) (by omega) l₀ r Op.Delete (l₀ + 1) r rfl
            ⟨by omega, le_refl r, by simp, by simp, fun _ => rfl, by simp⟩]
          rw [hlen]
          by_cases hoM : o = Op.Match
          · subst hoM
            obtain ⟨hdiff, -⟩ := hM rfl
            simp only [if_pos rfl]
            push_cast
            omega
          · simp [hoM]
      | Insert =>
        have hr := table_op_Insert_pos eq l r ho
        obtain ⟨r₀, rfl⟩ : ∃ k, r = k + 1 := ⟨r - 1, by omega⟩
        have hlen := table_Insert_length eq l r₀ ho
        by_cases hoo : o = Op.Insert
        · subst hoo
          rw [emitB_Insert_cont eq l r₀ le re ho]
          rw [ih (l + r₀) (by omega) l r₀ Op.Insert le re rfl
            ⟨hle, by omega, by simp, by simp, by simp, hI⟩]
          rw [hlen]
        · rw [emitB_Insert_flush eq l r₀ le re o ho hoo]
          rw [matchTotal_cons]
          rw [ih (l + r₀) (by omega) l r₀ Op.Insert l (r₀ + 1) rfl
            ⟨le_refl l, by omega, by simp, by simp, by simp, fun _ => rfl⟩]
          rw [hlen]
          by_cases hoM : o = Op.Match
          · subst hoM
            obtain ⟨hdiff, -⟩ := hM rfl
            simp only [if_pos rfl]
            push_cast
            omega
          · simp [hoM]
    · obtain rfl : l = 0 := by omega
      obtain rfl : r = 0 := by omega
      rw [emitB_zero, if_neg hnoop]
      rw [matchTotal_cons, matchTotal_nil]
      rw [table_zero_zero]
      by_cases hoM : o = Op.Match
      · simp [hoM]
      · simp [hoM]

/-- The sum of the `Match` lengths of a `Make` result equals the DP
length at the bottom-right table cell. -/
theorem matchTotal_Make (iface : Interface) :
    matchTotal (Make iface) =
      ((table iface.Equal iface.LeftLen iface.RightLen).length : Int) := by
  rw [Make_eq_emitB iface, matchTotal_reverse]
  rw [emitB_matchTotal iface.Equal (iface.LeftLen + iface.RightLen)
    iface.LeftLen iface.RightLen _ iface.LeftLen iface.RightLen rfl
    (RunOK_init iface.Equal iface.LeftLen iface.RightLen)]
  split <;> omega

/-! The abstract notion of a common subsequence under an arbitrary
equality predicate: a list of index pairs, strictly increasing in both
coordinates, within bounds, and equality-related at every pair. -/

/-- Strict domination of index pairs (both coordinates increase). -/
def pairLt (p q : Nat × Nat) : Prop := p.1 < q.1 ∧ p.2 < q.2

instance : IsTrans (Nat × Nat) pairLt :=
  ⟨fun _ _ _ h1 h2 => ⟨lt_trans h1.1 h2.1, lt_trans h1.2 h2.2⟩⟩

/-- A common subsequence (matching) of the first `NL` left elements and
first `NR` right elements under the predicate `eq`. -/
def IsMatching (eq : Nat → Nat → Bool) (NL NR : Nat) (ps : List (Nat × Nat)) : Prop :=
  List.Chain' pairLt ps ∧ ∀ p ∈ ps, p.1 < NL ∧ p.2 < NR ∧ eq p.1 p.2 = true

theorem IsMatching.mono (eq : Nat → Nat → Bool) {NL NR NL' NR' : Nat}
    {ps : List (Nat × Nat)} (h : IsMatching eq NL NR ps)
    (h1 : NL ≤ NL') (h2 : NR ≤ NR') : IsMatching eq NL' NR' ps :=
  ⟨h.1, fun p hp => ⟨lt_of_lt_of_le (h.2 p hp).1 h1,
    lt_of_lt_of_le (h.2 p hp).2.1 h2, (h.2 p hp).2.2⟩⟩

/-- Upper bound: no common subsequence is longer than the DP length. -/
theorem matching_length_le (eq : Nat → Nat → Bool) :
    ∀ n NL NR ps, NL + NR = n → IsMatching eq NL NR ps →
      ps.length ≤ (table eq NL NR).length := by
  intro n
  induction n using Nat.strong_induction_on with
  | _ n ih =>
    intro NL NR ps hn hm
    obtain ⟨hch, hmem⟩ := hm
    match hNL : NL, hNR : NR with
    | 0, _ =>
      have : ps = [] := by
        cases ps with
        | nil => rfl
        | cons p ps' => exact absurd (hmem p (by simp)).1 (by omega)
      simp [this]
    | _ + 1, 0 =>
      have : ps = [] := by
        cases ps with
        | nil => rfl
        | cons p ps' => exact absurd (hmem p (by simp)).2.1 (by omega)
      simp [this]
    | a + 1, b + 1 =>
      cases hps : ps with
      | nil => simp
      | cons p0 ps' =>
        rw [← hps]
        have hne : ps ≠ [] := by rw [hps]; simp
        have hsplit := List.dropLast_append_getLast hne
        set q := ps.getLast hne with hq
        set qs := ps.dropLast with hqs
        have hpw : List.Pairwise pairLt ps := List.chain'_iff_pairwise.mp hch
        have hpw' : List.Pairwise pairLt (qs ++ [q]) := by rw [hsplit]; exact hpw
        obtain ⟨hpwqs, -, hdom⟩ := List.pairwise_append.mp hpw'
        have hdomq : ∀ x ∈ qs, pairLt x q := fun x hx => hdom x hx q (by simp)
        have hqmem : q ∈ ps := List.getLast_mem hne
        obtain ⟨hq1, hq2, hqeq⟩ := hmem q hqmem
        have hmemqs : ∀ x ∈ qs, x ∈ ps := by
          intro x hx
          rw [← hsplit]
          exact List.mem_append_left _ hx
        have hlen : ps.length = qs.length + 1 := by
          conv_lhs => rw [← hsplit]
          simp
        cases hcase : eq a b with
        | true =>
          -- the cell is a Match: bound the dropLast inside the smaller box
          have hqsm : IsMatching eq a b qs := by
            refine ⟨hpwqs.chain', ?_⟩
            intro x hx
            obtain ⟨hx1, hx2, hxeq⟩ := hmem x (hmemqs x hx)
            obtain ⟨hd1, hd2⟩ := hdomq x hx
            exact ⟨by omega, by omega, hxeq⟩
          have hb := ih (a + b) (by omega) a b qs rfl hqsm
          have htv : (table eq (a + 1) (b + 1)).length = (table eq a b).length + 1 := by
            rw [table_succ_succ]
            simp [hcase]
          omega
        | false =>
          have hqne : ¬(q.1 = a ∧ q.2 = b) := by
            rintro ⟨e1, e2⟩
            rw [e1, e2] at hqeq
            rw [hqeq] at hcase
            exact Bool.noConfusion hcase
          have htv : (table eq (a + 1) (b + 1)).length =
              if (table eq (a + 1) b).length < (table eq a (b + 1)).length then
                (table eq a (b + 1)).length
              else (table eq (a + 1) b).length := by
            rw [table_succ_succ]
            simp only [hcase, Bool.false_eq_true, if_false]
            split <;> rfl
          by_cases hq2b : q.2 < b
          · -- the whole matching fits in the box (a+1, b)
            have hm' : IsMatching eq (a + 1) b ps := by
              refine ⟨hch, ?_⟩
              intro x hx
              obtain ⟨hx1, hx2, hxeq⟩ := hmem x hx
              rcases List.mem_append.mp (by rw [hsplit]; exact hx :
                  x ∈ qs ++ [q]) with hxqs | hxq
              · obtain ⟨hd1, hd2⟩ := hdomq x hxqs
                exact ⟨hx1, by omega, hxeq⟩
              · obtain rfl : x = q := by simpa using hxq
                exact ⟨hx1, by omega, hxeq⟩
            have hb := ih ((a + 1) + b) (by omega) (a + 1) b ps rfl hm'
            rw [htv]
            split <;> omega
          · -- q.2 = b, hence q.1 < a: the matching fits in the box (a, b+1)
            have hq1a : q.1 < a := by
              rcases Nat.lt_or_ge q.1 a with h | h
              · exact h
              · exfalso
                exact hqne ⟨by omega, by omega⟩
            have hm' : IsMatching eq a (b + 1) ps := by
              refine ⟨hch, ?_⟩
              intro x hx
              obtain ⟨hx1, hx2, hxeq⟩ := hmem x hx
              rcases List.mem_append.mp (by rw [hsplit]; exact hx :
                  x ∈ qs ++ [q]) with hxqs | hxq
              · obtain ⟨hd1, hd2⟩ := hdomq x hxqs
                exact ⟨by omega, hx2, hxeq⟩
              · obtain rfl : x = q := by simpa using hxq
                exact ⟨by omega, hx2, hxeq⟩
            have hb := ih (a + (b + 1)) (by omega) a (b + 1) ps rfl hm'
            rw [htv]
            split <;> omega

/-- Lower bound: a common subsequence of the DP length exists. -/
theorem matching_exists (eq : Nat → Nat → Bool) :
    ∀ n NL NR, NL + NR = n → ∃ ps, IsMatching eq NL NR ps ∧
      ps.length = (table eq NL NR).length := by
  intro n
  induction n using Nat.strong_induction_on with
  | _ n ih =>
    intro NL NR hn
    match hNL : NL, hNR : NR with
    | 0, r =>
      exact ⟨[], ⟨List.chain'_nil, by simp⟩, by simp [table_length_left_zero]⟩
    | a + 1, 0 =>
      exact ⟨[], ⟨List.chain'_nil, by simp⟩, by simp [table_length_right_zero]⟩
    | a + 1, b + 1 =>
      cases hcase : eq a b with
      | true =>
        obtain ⟨ps, ⟨hch, hmem⟩, hlen⟩ := ih (a + b) (by omega) a b rfl
        refine ⟨ps ++ [(a, b)], ⟨?_, ?_⟩, ?_⟩
        · refine List.Chain'.append hch (List.chain'_singleton _) ?_
          intro x hx y hy
          have hy' : y = (a, b) := by
            simp only [List.head?_cons, Option.mem_def, Option.some.injEq] at hy
            exact hy.symm
          subst hy'
          obtain ⟨hpf, hxm⟩ := List.mem_getLast?_eq_getLast hx
          have hxmem : x ∈ ps := by
            rw [hxm]
            exact List.getLast_mem hpf
          obtain ⟨h1, h2, -⟩ := hmem x hxmem
          exact ⟨h1, h2⟩
        · intro p hp
          rcases List.mem_append.mp hp with hp' | hp'
          · obtain ⟨h1, h2, h3⟩ := hmem p hp'
            exact ⟨by omega, by omega, h3⟩
          · obtain rfl : p = (a, b) := by simpa using hp'
            exact ⟨by omega, by omega, hcase⟩
        · rw [table_succ_succ]
          simp [hcase, hlen]
      | false =>
        have htv : table eq (a + 1) (b + 1) =
            if (table eq (a + 1) b).length < (table eq a (b + 1)).length then
              ⟨Op.Delete, (table eq a (b + 1)).length⟩
            else ⟨Op.Insert, (table eq (a + 1) b).length⟩ := by
          rw [table_succ_succ]
          simp [hcase]
        by_cases hAB : (table eq (a + 1) b).length < (table eq a (b + 1)).length
        · obtain ⟨ps, hps, hlen⟩ := ih (a + (b + 1)) (by omega) a (b + 1) rfl
          refine ⟨ps, hps.mono eq (by omega) (by omega), ?_⟩
          rw [htv, if_pos hAB]
          exact hlen
        · obtain ⟨ps, hps, hlen⟩ := ih ((a + 1) + b) (by omega) (a + 1) b rfl
          refine ⟨ps, hps.mono eq (by omega) (by omega), ?_⟩
          rw [htv, if_neg hAB]
          exact hlen

/-- C3: the `Match` records of a `Make` result select a longest common
subsequence: every common subsequence under the supplied predicate is at
most as long as the total `Match` length, one of exactly that length
exists, and every matched index pair satisfies the predicate. -/
theorem C3_lcs_optimal (iface : Interface) :
    (∀ qs, IsMatching iface.Equal iface.LeftLen iface.RightLen qs →
      (qs.length : Int) ≤ matchTotal (Make iface)) ∧
    (∃ ps, IsMatching iface.Equal iface.LeftLen iface.RightLen ps ∧
      (ps.length : Int) = matchTotal (Make iface)) ∧
    (∀ d ∈ Make iface, d.Op = Op.Match →
      d.Lend - d.Lstart = d.Rend - d.Rstart ∧
      ∀ j : Nat, (j : Int) < d.Lend - d.Lstart →
        iface.Equal (d.Lstart + (j : Int)).toNat (d.Rstart + (j : Int)).toNat = true) := by
  refine ⟨?_, ?_, ?_⟩
  · intro qs hqs
    rw [matchTotal_Make]
    exact_mod_cast matching_length_le iface.Equal
      (iface.LeftLen + iface.RightLen) iface.LeftLen iface.RightLen qs rfl hqs
  · obtain ⟨ps, hps, hlen⟩ := matching_exists iface.Equal
      (iface.LeftLen + iface.RightLen) iface.LeftLen iface.RightLen rfl
    refine ⟨ps, hps, ?_⟩
    rw [matchTotal_Make]
    exact_mod_cast hlen
  · intro d hd hop
    obtain ⟨-, -, -, -, -, -, -, hmem⟩ := Make_spec iface
    rw [Make_eq_emitB iface, List.mem_reverse] at hd
    obtain ⟨⟨-, -, -, -, -, hMc, -, -⟩, -, -⟩ := hmem d hd
    exact hMc hop

/-! ### C4: the fixed tie-break example, C6: the all-empty input -/

/-- Character equality between "aBaCa" (left) and "aCaBa" (right). -/
def eqC4 : Nat → Nat → Bool := fun l r =>
  decide ((['a', 'B', 'a', 'C', 'a'].getD l 'z') = (['a', 'C', 'a', 'B', 'a'].getD r 'z'))

/-- C4: comparing "aBaCa" with "aCaBa" produces exactly the four-record
script of the spec, and (second conjunct) in every non-equal cell the
engine marks `Delete` exactly when the insert-neighbor's length is
strictly below the delete-neighbor's, and `Insert` otherwise, ties
included. -/
theorem C4_tie_break :
    Make ⟨5, 5, eqC4⟩ =
      [⟨Op.Delete, 0, 2, 0, 0⟩, ⟨Op.Match, 2, 4, 0, 2⟩,
       ⟨Op.Insert, 4, 4, 2, 4⟩, ⟨Op.Match, 4, 5, 4, 5⟩] ∧
    (∀ (eq : Nat → Nat → Bool) (l r : Nat), eq l r = false →
      (table eq (l + 1) (r + 1)).op =
        if (table eq (l + 1) r).length < (table eq l (r + 1)).length then Op.Delete
        else Op.Insert) := by
  constructor
  · decide
  · intro eq l r hf
    rw [table_succ_succ]
    simp only [hf, Bool.false_eq_true, if_false]
    split <;> rfl

/-- C6 counterexample: on two empty sequences `Make` does not return an
empty script; it returns the single zero-length record
`{Match, 0, 0, 0, 0}` (the final `record(noOp, 0, 0)` flushes the
initial pending diff even though the loop never ran). -/
theorem C6_counterexample :
    Make ⟨0, 0, fun _ _ => false⟩ = [⟨Op.Match, 0, 0, 0, 0⟩] ∧
    Make ⟨0, 0, fun _ _ => false⟩ ≠ ([] : List Diff) := by
  exact ⟨rfl, by decide⟩

/-- C6 amended: on two empty sequences `Make` returns exactly the
single zero-length Match record `{Match, 0, 0, 0, 0}` (for every
equality predicate), not an empty list. -/
theorem C6_amended (eq : Nat → Nat → Bool) :
    Make ⟨0, 0, eq⟩ = [⟨Op.Match, 0, 0, 0, 0⟩] := rfl

/-! ### C7: the interior rule of `Compact` -/

/-- Unfolding of `Compact` on a script with at least three records
(`first`, a nonempty interior, `last`), exactly as the source computes
it. -/
theorem Compact_ge3 (first : Diff) (mid : List Diff) (last : Diff) (k : Int)
    (hne : mid ≠ []) :
    Compact (first :: mid ++ [last]) k =
      (if first.Op = Op.Match ∧ first.Len > k then
        [⟨Op.Match, first.Lend - k, first.Lend, first.Rend - k, first.Rend⟩]
       else [first]) ++
      (mid.flatMap fun d =>
        if d.Op = Op.Match ∧ d.Len > k * 2 then
          [⟨Op.Match, d.Lstart, d.Lstart + k, d.Rstart, d.Rstart + k⟩,
           ⟨Op.Match, d.Lend - k, d.Lend, d.Rend - k, d.Rend⟩]
        else [d]) ++
      (if last.Op = Op.Match ∧ last.Len > k then
        [⟨Op.Match, last.Lstart, last.Lstart + k, last.Rstart, last.Rstart + k⟩]
       else [last]) := by
  match mid with
  | [] => exact absurd rfl hne
  | [m0] => rfl
  | m0 :: m1 :: mid'' =>
    have e0 : m0 :: m1 :: (mid'' ++ [last]) = (m0 :: m1 :: mid'') ++ [last] := by simp
    have e1 : (m0 :: m1 :: (mid'' ++ [last])).dropLast = m0 :: m1 :: mid'' := by
      rw [e0]
      exact List.dropLast_concat
    have e2 : (m0 :: m1 :: (mid'' ++ [last])).getLastD first = last := by
      rw [e0]
      exact List.getLastD_concat _ _ _
    show (if first.Op = Op.Match ∧ first.Len > k then
        [⟨Op.Match, first.Lend - k, first.Lend, first.Rend - k, first.Rend⟩]
       else [first]) ++
      ((m0 :: m1 :: (mid'' ++ [last])).dropLast.flatMap fun d =>
        if d.Op = Op.Match ∧ d.Len > k * 2 then
          [⟨Op.Match, d.Lstart, d.Lstart + k, d.Rstart, d.Rstart + k⟩,
           ⟨Op.Match, d.Lend - k, d.Lend, d.Rend - k, d.Rend⟩]
        else [d]) ++
      (if ((m0 :: m1 :: (mid'' ++ [last])).getLastD first).Op = Op.Match ∧
          ((m0 :: m1 :: (mid'' ++ [last])).getLastD first).Len > k then
        [⟨Op.Match, ((m0 :: m1 :: (mid'' ++ [last])).getLastD first).Lstart,
          ((m0 :: m1 :: (mid'' ++ [last])).getLastD first).Lstart + k,
          ((m0 :: m1 :: (mid'' ++ [last])).getLastD first).Rstart,
          ((m0 :: m1 :: (mid'' ++ [last])).getLastD first).Rstart + k⟩]
       else [(m0 :: m1 :: (mid'' ++ [last])).getLastD first]) = _
    rw [e1, e2]

/-- C7: on any script with at least three records whose interior Match
records are well formed (equal left and right lengths), `Compact`
replaces each interior Match longer than `2k` by exactly the context
records of the spec, passes everything else in the interior through
unchanged, and the index gap between the emitted context records equals
(run length − 2k) on both axes. -/
theorem C7_interior_rule (first : Diff) (mid : List Diff) (last : Diff) (k : Int)
    (_hk : 0 ≤ k) (hne : mid ≠ [])
    (hWF : ∀ d ∈ mid, d.Op = Op.Match → d.Rend - d.Rstart = d.Lend - d.Lstart) :
    Compact (first :: mid ++ [last]) k =
      (if first.Op = Op.Match ∧ first.Len > k then
        [⟨Op.Match, first.Lend - k, first.Lend, first.Rend - k, first.Rend⟩]
       else [first]) ++
      (mid.flatMap fun d =>
        if d.Op = Op.Match ∧ d.Len > 2 * k then
          [⟨Op.Match, d.Lstart, d.Lstart + k, d.Rstart, d.Rstart + k⟩,
           ⟨Op.Match, d.Lend - k, d.Lend, d.Rend - k, d.Rend⟩]
        else [d]) ++
      (if last.Op = Op.Match ∧ last.Len > k then
        [⟨Op.Match, last.Lstart, last.Lstart + k, last.Rstart, last.Rstart + k⟩]
       else [last]) ∧
    (∀ d ∈ mid, d.Op = Op.Match → d.Len > 2 * k →
      (d.Lend - k) - (d.Lstart + k) = d.Len - 2 * k ∧
      (d.Rend - k) - (d.Rstart + k) = d.Len - 2 * k) := by
  constructor
  · rw [Compact_ge3 first mid last k hne]
    simp only [show k * 2 = 2 * k from mul_comm k 2]
  · intro d hd hop hlong
    have hwf := hWF d hd hop
    have hLen : d.Len = d.Lend - d.Lstart := by
      unfold Diff.Len
      rw [hop]
    constructor
    · rw [hLen]; ring
    · rw [hLen]; omega

/-! ### C8: comparing a sequence with itself compacts to nothing -/

theorem table_diag_Match (eq : Nat → Nat → Bool) (n : Nat)
    (hdiag : ∀ i, i < n → eq i i = true) :
    ∀ j, j ≤ n → (table eq j j).op = Op.Match := by
  intro j hj
  match j with
  | 0 => rfl
  | j' + 1 =>
    rw [table_succ_succ]
    simp [hdiag j' (by omega)]

theorem emitB_diag (eq : Nat → Nat → Bool) (n : Nat)
    (hdiag : ∀ i, i < n → eq i i = true) :
    ∀ j, j ≤ n → emitB eq j j Op.Match n n =
      [⟨Op.Match, 0, (n : Int), 0, (n : Int)⟩] := by
  intro j
  induction j with
  | zero =>
    intro _
    rw [emitB_zero]
    simp
  | succ j' ihj =>
    intro hj
    rw [emitB_Match_cont eq j' j' n n (table_diag_Match eq n hdiag (j' + 1) hj)]
    exact ihj (by omega)

/-- On identical sequences the whole script is one Match run covering
both sequences. -/
theorem Make_diag (n : Nat) (eq : Nat → Nat → Bool)
    (hdiag : ∀ i, i < n → eq i i = true) :
    Make ⟨n, n, eq⟩ = [⟨Op.Match, 0, (n : Int), 0, (n : Int)⟩] := by
  rw [Make_eq_emitB ⟨n, n, eq⟩]
  show (emitB eq n n (table eq n n).op n n).reverse = _
  rw [table_diag_Match eq n hdiag n le_rfl]
  rw [emitB_diag eq n hdiag n le_rfl]
  rfl

/-- C8: comparing any sequence with itself (the equality predicate
holds on the diagonal) and compacting with any context length `k ≥ 0`
yields the empty result, including for the empty sequence. -/
theorem C8_self_compare_empty (n : Nat) (eq : Nat → Nat → Bool)
    (hdiag : ∀ i, i < n → eq i i = true) (k : Int) (_hk : 0 ≤ k) :
    Compact (Make ⟨n, n, eq⟩) k = [] := by
  rw [Make_diag n eq hdiag]
  rfl

/-! ### C9: negative reported lengths -/

/-- The only failure the Go code can produce: a runtime panic (out of
range slice allocation or indexing).  The package defines no error
values at all; in particular no `InvalidInput` error exists. -/
inductive MakeFailure where
  | sliceFault
deriving DecidableEq, Repr

/-- A comparison interface whose reported lengths are raw Go ints and
may be negative. -/
structure IntInterface where
  LeftLen : Int
  RightLen : Int
  Equal : Nat → Nat → Bool

/-- Go `Make` on an interface that may report negative lengths.  The Go
source performs no validation: with `llen < 0` either
`make([][]cell, llen+1, llen+1)` panics (for `llen ≤ -2`) or the
base-column loop indexes `table[0]` of an empty table and panics (for
`llen = -1`); with `rlen < 0` the base-column write `table[lidx][0]`
panics.  Either way the call dies with a runtime fault before producing
any output; otherwise it behaves as `Make`.  This wrapper captures
exactly that observable behavior. -/
def MakeChecked (iface : IntInterface) : Except MakeFailure (List Diff) :=
  if iface.LeftLen < 0 ∨ iface.RightLen < 0 then Except.error MakeFailure.sliceFault
  else Except.ok (Make ⟨iface.LeftLen.toNat, iface.RightLen.toNat, iface.Equal⟩)

/-- C9 counterexample: on a negative left length the code does not fail
with an `InvalidInput` error — it dies with a runtime fault, and the
code has no other failure value (no `InvalidInput` exists at all). -/
theorem C9_counterexample :
    MakeChecked ⟨-1, 3, fun _ _ => false⟩ = Except.error MakeFailure.sliceFault ∧
    ∀ e : MakeFailure, e = MakeFailure.sliceFault := by
  refine ⟨rfl, ?_⟩
  intro e
  cases e
  rfl

/-- C9 amended: `Make` performs no validation and returns no error
value; any negative reported length causes a runtime fault (Go panic)
during table setup, before any output is produced. -/
theorem C9_amended (iface : IntInterface)
    (h : iface.LeftLen < 0 ∨ iface.RightLen < 0) :
    MakeChecked iface = Except.error MakeFailure.sliceFault := by
  unfold MakeChecked
  rw [if_pos h]

/-! ### C10: `Compact` is idempotent on engine output -/

theorem Len_mk_Match (a b c d : Int) : (⟨Op.Match, a, b, c, d⟩ : Diff).Len = b - a := rfl

theorem flatMap_eq_self {α : Type} (l : List α) (f : α → List α)
    (h : ∀ x ∈ l, f x = [x]) : l.flatMap f = l := by
  induction l with
  | nil => rfl
  | cons a t iht =>
    rw [List.flatMap_cons, h a (by simp), iht (fun x hx => h x (by simp [hx]))]
    rfl

theorem flatMap_ne_nil {α β : Type} (l : List α) (f : α → List β)
    (hl : l ≠ []) (hf : ∀ x, f x ≠ []) : l.flatMap f ≠ [] := by
  cases l with
  | nil => exact absurd rfl hl
  | cons a t =>
    rw [List.flatMap_cons]
    intro hcontra
    exact hf a (List.append_eq_nil.mp hcontra).1

/-- Second application of `Compact` on a three-or-more-record output
changes nothing: the ends were already trimmed to at most `k` elements
and the interior to at most `k` per emitted record. -/
theorem Compact_idem_ge3 (first : Diff) (mid : List Diff) (last : Diff) (k : Int)
    (hk : 0 ≤ k) (hne : mid ≠ []) :
    Compact (Compact (first :: mid ++ [last]) k) k =
      Compact (first :: mid ++ [last]) k := by
  rw [Compact_ge3 first mid last k hne]
  have hF : ∃ f', (if first.Op = Op.Match ∧ first.Len > k then
      [(⟨Op.Match, first.Lend - k, first.Lend, first.Rend - k, first.Rend⟩ : Diff)]
     else [first]) = [f'] ∧ ¬(f'.Op = Op.Match ∧ f'.Len > k) := by
    split_ifs with hcond
    · refine ⟨_, rfl, ?_⟩
      rintro ⟨-, hlen⟩
      rw [Len_mk_Match] at hlen
      omega
    · exact ⟨first, rfl, hcond⟩
  have hL : ∃ l', (if last.Op = Op.Match ∧ last.Len > k then
      [(⟨Op.Match, last.Lstart, last.Lstart + k, last.Rstart, last.Rstart + k⟩ : Diff)]
     else [last]) = [l'] ∧ ¬(l'.Op = Op.Match ∧ l'.Len > k) := by
    split_ifs with hcond
    · refine ⟨_, rfl, ?_⟩
      rintro ⟨-, hlen⟩
      rw [Len_mk_Match] at hlen
      omega
    · exact ⟨last, rfl, hcond⟩
  obtain ⟨f', hFe, hFc⟩ := hF
  obtain ⟨l', hLe, hLc⟩ := hL
  rw [hFe, hLe]
  have hM : ∀ x ∈ mid.flatMap (fun d =>
      if d.Op = Op.Match ∧ d.Len > k * 2 then
        [(⟨Op.Match, d.Lstart, d.Lstart + k, d.Rstart, d.Rstart + k⟩ : Diff),
         ⟨Op.Match, d.Lend - k, d.Lend, d.Rend - k, d.Rend⟩]
      else [d]),
      ¬(x.Op = Op.Match ∧ x.Len > k * 2) := by
    intro x hx
    obtain ⟨d, hd, hxd⟩ := List.mem_flatMap.mp hx
    by_cases hcond : d.Op = Op.Match ∧ d.Len > k * 2
    · rw [if_pos hcond] at hxd
      rcases List.mem_cons.mp hxd with rfl | hxd'
      · rintro ⟨-, hlen⟩
        rw [Len_mk_Match] at hlen
        omega
      · obtain rfl : x = ⟨Op.Match, d.Lend - k, d.Lend, d.Rend - k, d.Rend⟩ := by
          simpa using hxd'
        rintro ⟨-, hlen⟩
        rw [Len_mk_Match] at hlen
        omega
    · rw [if_neg hcond] at hxd
      obtain rfl : x = d := by simpa using hxd
      exact hcond
  have hMne : mid.flatMap (fun d =>
      if d.Op = Op.Match ∧ d.Len > k * 2 then
        [(⟨Op.Match, d.Lstart, d.Lstart + k, d.Rstart, d.Rstart + k⟩ : Diff),
         ⟨Op.Match, d.Lend - k, d.Lend, d.Rend - k, d.Rend⟩]
      else [d]) ≠ [] := by
    apply flatMap_ne_nil _ _ hne
    intro x
    split <;> simp
  have hshape : ∀ M : List Diff, [f'] ++ M ++ [l'] = f' :: M ++ [l'] := by
    intro M
    simp
  rw [hshape]
  rw [Compact_ge3 f' _ l' k hMne]
  rw [if_neg hFc, if_neg hLc]
  rw [flatMap_eq_self _ _ (fun x hx => if_neg (hM x hx))]
  exact hshape _

/-- `Compact` is idempotent on any script in which no two consecutive
records share an operation tag (which every `Make` output satisfies). -/
theorem Compact_idem (ds : List Diff) (k : Int) (hk : 0 ≤ k)
    (hch : ds.Chain' (fun d d' => d.Op ≠ d'.Op)) :
    Compact (Compact ds k) k = Compact ds k := by
  match ds with
  | [] => rfl
  | [d] =>
    by_cases hd : d.Op = Op.Match
    · have h1 : Compact [d] k = [] := by
        show (if d.Op = Op.Match then [] else [d]) = []
        rw [if_pos hd]
      rw [h1]
      rfl
    · have h1 : Compact [d] k = [d] := by
        show (if d.Op = Op.Match then [] else [d]) = [d]
        rw [if_neg hd]
      rw [h1]
      exact h1
  | [d0, d1] =>
    have hne : d0.Op ≠ d1.Op := by
      obtain ⟨h, -⟩ := List.chain'_cons'.mp hch
      exact h d1 rfl
    by_cases h0 : d0.Op = Op.Match ∧ d0.Len > k
    · have h1 : Compact [d0, d1] k =
          [⟨Op.Match, d0.Lend - k, d0.Lend, d0.Rend - k, d0.Rend⟩, d1] := by
        show (if d0.Op = Op.Match ∧ d0.Len > k then _ else _) = _
        rw [if_pos h0]
      rw [h1]
      have hd1 : d1.Op ≠ Op.Match := fun hh => hne (h0.1.trans hh.symm)
      show (if (⟨Op.Match, d0.Lend - k, d0.Lend, d0.Rend - k, d0.Rend⟩ : Diff).Op = Op.Match ∧
          (⟨Op.Match, d0.Lend - k, d0.Lend, d0.Rend - k, d0.Rend⟩ : Diff).Len > k then _
        else if d1.Op = Op.Match ∧ d1.Len > k then _ else _) = _
      rw [if_neg (by rintro ⟨-, hlen⟩; rw [Len_mk_Match] at hlen; omega),
        if_neg (fun hh => hd1 hh.1)]
    · by_cases h1c : d1.Op = Op.Match ∧ d1.Len > k
      · have h1 : Compact [d0, d1] k =
            [d0, ⟨Op.Match, d1.Lstart, d1.Lstart + k, d1.Rstart, d1.Rstart + k⟩] := by
          show (if d0.Op = Op.Match ∧ d0.Len > k then _
            else if d1.Op = Op.Match ∧ d1.Len > k then _ else _) = _
          rw [if_neg h0, if_pos h1c]
        rw [h1]
        have hd0 : d0.Op ≠ Op.Match := fun hm => hne (hm.trans h1c.1.symm)
        show (if d0.Op = Op.Match ∧ d0.Len > k then _
          else if (⟨Op.Match, d1.Lstart, d1.Lstart + k, d1.Rstart, d1.Rstart + k⟩ : Diff).Op
              = Op.Match ∧
            (⟨Op.Match, d1.Lstart, d1.Lstart + k, d1.Rstart, d1.Rstart + k⟩ : Diff).Len > k
          then _ else _) = _
        rw [if_neg (fun hh => hd0 hh.1),
          if_neg (by rintro ⟨-, hlen⟩; rw [Len_mk_Match] at hlen; omega)]
      · have h1 : Compact [d0, d1] k = [d0, d1] := by
          show (if d0.Op = Op.Match ∧ d0.Len > k then _
            else if d1.Op = Op.Match ∧ d1.Len > k then _ else _) = _
          rw [if_neg h0, if_neg h1c]
        rw [h1]
        exact h1
  | d0 :: d1 :: d2 :: rest =>
    have htlne : d1 :: d2 :: rest ≠ [] := by simp
    have hmidne : (d1 :: d2 :: rest).dropLast ≠ [] := by
      intro hcontra
      have := congrArg List.length hcontra
      simp [List.length_dropLast] at this
    have hs := List.dropLast_append_getLast htlne
    rw [show d0 :: d1 :: d2 :: rest =
      d0 :: (d1 :: d2 :: rest).dropLast ++ [(d1 :: d2 :: rest).getLast htlne] from by
        conv_lhs => rw [← hs]
        exact (List.cons_append _ _ _).symm]
    exact Compact_idem_ge3 d0 _ _ k hk hmidne

/-- C10: for every `Make` output and every non-negative context length,
compacting twice equals compacting once. -/
theorem C10_compact_idempotent (iface : Interface) (k : Int) (hk : 0 ≤ k) :
    Compact (Compact (Make iface) k) k = Compact (Make iface) k :=
  Compact_idem (Make iface) k hk (Make_chain_op_ne iface)

/-! ### Concrete witnesses -/

/-- Left sequence "aBc" for the C1 witness. -/
def leftW : Nat → Char := fun n => ['a', 'B', 'c'].getD n 'z'

/-- Right sequence "ac" for the C1 witness. -/
def rightW : Nat → Char := fun n => ['a', 'c'].getD n 'z'

/-- Witness for C1 at the concrete comparison "aBc" vs "ac". -/
theorem C1_round_trip_witness :
    applyScript leftW rightW
      (Make ⟨3, 2, fun a b => decide (leftW a = rightW b)⟩) =
      (List.range 2).map rightW :=
  C1_round_trip ⟨3, 2, fun a b => decide (leftW a = rightW b)⟩ leftW rightW
    (fun _ _ _ _ hE => of_decide_eq_true hE)

/-- Witness for C7 at a concrete three-record script with one long
interior Match run and context length 2. -/
theorem C7_interior_rule_witness :
    Compact [⟨Op.Delete, 0, 1, 0, 0⟩, ⟨Op.Match, 1, 6, 0, 5⟩,
      ⟨Op.Insert, 6, 6, 5, 8⟩] 2 =
      [⟨Op.Delete, 0, 1, 0, 0⟩, ⟨Op.Match, 1, 3, 0, 2⟩, ⟨Op.Match, 4, 6, 3, 5⟩,
       ⟨Op.Insert, 6, 6, 5, 8⟩] := by
  have h := C7_interior_rule ⟨Op.Delete, 0, 1, 0, 0⟩ [⟨Op.Match, 1, 6, 0, 5⟩]
    ⟨Op.Insert, 6, 6, 5, 8⟩ 2 (by decide) (by decide) (by decide)
  exact h.1.trans (by decide)

/-- Witness for C8 at the length-3 identity comparison with context
length 2. -/
theorem C8_self_compare_empty_witness :
    Compact (Make ⟨3, 3, fun i j => decide (i = j)⟩) 2 = [] :=
  C8_self_compare_empty 3 (fun i j => decide (i = j)) (by decide) 2 (by decide)

/-- Witness for the amended C9 at a concrete negative left length. -/
theorem C9_amended_witness :
    MakeChecked ⟨-1, 3, fun _ _ => false⟩ = Except.error MakeFailure.sliceFault :=
  C9_amended ⟨-1, 3, fun _ _ => false⟩ (Or.inl (by decide))

/-- Witness for C10 at the concrete comparison "aB" vs "a" with context
length 1. -/
theorem C10_compact_idempotent_witness :
    Compact (Compact (Make ⟨2, 1, fun a b => decide (a = b)⟩) 1) 1 =
      Compact (Make ⟨2, 1, fun a b => decide (a = b)⟩) 1 :=
  C10_compact_idempotent ⟨2, 1, fun a b => decide (a = b)⟩ 1 (by decide)

end Gendiff
